import Mathlib

/-!
Shallow embedding of the `ticker_core` crate
(src/rust/ticker_core/src/engine.rs and src/rust/ticker_core/src/api.rs):
a background price-feed simulator.  The engine holds shared state
(`running` and `cancel` atomic flags and a mutex-protected FIFO queue),
spawns at most one producer run, and the producer loop repeatedly walks the
per-run symbol-to-price map, clamps each price at the floor 0.01, invokes the
listener and then enqueues the same update.

Modelling decisions (each recorded next to the definition it concerns):
* `f64` prices are modelled as rationals; every price property proved here is
  order-theoretic (the clamp is `max`) and does not depend on rounding.
* The concurrent system is modelled as a labelled transition system: caller
  operations (`start_tracking`, `cancel`, `drain_updates`) are functions taken
  verbatim from the source, and the producer thread is broken into the
  micro-steps the source interleaves at (runtime creation, seeding,
  cancel check, per-symbol listener call, per-symbol queue push, sleep).
* The `HashMap` collect at engine.rs lines 59-65 is deterministic as a
  key-to-value map (later duplicates overwrite) but iterates in an arbitrary
  order that is fixed for the whole run (the map is never restructured while
  the loop runs); this is modelled by a deterministic insert-overwrite
  association list `collectPrices` together with an arbitrary permutation
  chosen once at seeding time.
* Mutex poisoning can only arise from a panic inside a critical section; no
  critical section of this program can panic, so the transition system keeps
  the lock unpoisoned.  The poisoned-lock behaviour of the producer-side
  enqueue (engine.rs lines 80-82) is modelled separately by `enqueue_update`.
-/

namespace TickerCore

/-- Mirrors `PriceUpdate` (api.rs lines 1-6): symbol, price (`f64`, modelled
as a rational) and a millisecond timestamp (`i64`, modelled as an integer). -/
structure PriceUpdate where
  symbol : String
  price : ℚ
  timestamp_ms : Int
deriving DecidableEq, Repr

/-- Price floor used by the clamp at engine.rs line 70 (`.max(0.01)`). -/
def priceFloor : ℚ := 1 / 100

/-- One random-walk update of a price: engine.rs lines 69-70,
`*price = (*price + delta).max(0.01)`. -/
def newPrice (p d : ℚ) : ℚ := max (p + d) priceFloor

/-- Insert-with-overwrite into an association list: the `HashMap` insertion
semantics of the collect at engine.rs lines 59-65 (a duplicate symbol
overwrites the stored base price; the map keeps one entry per key). -/
def insertPrice (m : List (String × ℚ)) (k : String) (v : ℚ) :
    List (String × ℚ) :=
  if k ∈ m.map Prod.fst then
    m.map (fun e => if e.1 = k then (e.1, v) else e)
  else m ++ [(k, v)]

/-- The per-run symbol-to-price map built at engine.rs lines 59-65: one fresh
base price is drawn per input list element (`bases`, drawn from [90,110)),
and the pairs are collected into a map with overwrite-on-duplicate.  The
canonical order produced here is first-occurrence order; the actual `HashMap`
iteration order is an arbitrary permutation of it, chosen at seeding time in
the transition system below. -/
def collectPrices (symbols : List String) (bases : List ℚ) :
    List (String × ℚ) :=
  (symbols.zip bases).foldl (fun m e => insertPrice m e.1 e.2) []

/-- The drain loop of `drain_updates` (engine.rs lines 105-111): pop from the
front up to `max` times, stopping early when the queue is empty.  Returns the
popped items in pop order together with the remaining queue. -/
def drainLoop : Nat → List PriceUpdate → List PriceUpdate × List PriceUpdate
  | 0, q => ([], q)
  | _ + 1, [] => ([], [])
  | n + 1, u :: q =>
    let r := drainLoop n q
    (u :: r.1, r.2)

/-- The producer-side enqueue (engine.rs lines 80-82):
`if let Ok(mut queue) = state.queue.lock() { queue.push_back(update) }`.
`Mutex::lock` returns `Err` exactly when the lock is poisoned; in that case
the `if let` pattern fails and the update is silently discarded. -/
def enqueue_update (poisoned : Bool) (queue : List PriceUpdate)
    (u : PriceUpdate) : List PriceUpdate :=
  if poisoned then queue else queue ++ [u]

/-- The drain-side lock acquisition (engine.rs lines 100-103): a poisoned
lock is recovered via `PoisonError::into_inner`, so drain proceeds on the
queue contents as last left either way. -/
def drain_lock (_poisoned : Bool) (queue : List PriceUpdate) :
    List PriceUpdate := queue

/-- Control point of the producer thread spawned at engine.rs lines 47-91.
`starting`: before `Runtime::new` has resolved (lines 48-55).
`checking`: at the top of the `while` loop, about to test `cancel` (line 67).
`stepping done todo`: inside the `for` loop (lines 68-83); `done` holds the
already-updated entries of the current step, `todo` the rest.
`enqueuing done todo u`: between the listener call (line 78) and the queue
push (lines 80-82) for the update `u` of the entry just moved to `done`.
`sleeping`: inside the 500 ms sleep (line 85). -/
inductive ProducerPhase where
  | starting (symbols : List String)
  | checking (prices : List (String × ℚ))
  | stepping (done todo : List (String × ℚ))
  | enqueuing (done todo : List (String × ℚ)) (u : PriceUpdate)
  | sleeping (prices : List (String × ℚ))
deriving DecidableEq, Repr

/-- Whole-system state.  `running`, `cancel` and `queue` are the fields of
`EngineState` (engine.rs lines 11-15).  `producers` is the list of live
producer runs (the source spawns one thread per successful start; the model
keeps a list so that "at most one producer" is a provable invariant, not a
modelling assumption).  `listenerLog`, `enqueuedLog` and `drainedLog` are
ghost histories: every listener invocation, every queue push and the
concatenation of all drain results, each in order of occurrence. -/
structure SysState where
  running : Bool
  cancel : Bool
  queue : List PriceUpdate
  producers : List ProducerPhase
  listenerLog : List PriceUpdate
  enqueuedLog : List PriceUpdate
  drainedLog : List PriceUpdate
deriving DecidableEq, Repr

/-- `TickerEngine::new` (engine.rs lines 25-33): fresh state, both flags
false, empty queue, no producer. -/
def TickerEngine.new : SysState :=
  { running := false, cancel := false, queue := [], producers := []
    listenerLog := [], enqueuedLog := [], drainedLog := [] }

/-- `TickerEngine::start_tracking` (engine.rs lines 35-55), caller-visible
part.  An empty symbol list returns immediately (lines 36-38).  Otherwise
`running.swap(true)` is a single atomic test-and-set: when the old value was
true the store leaves `running` true and the call returns with no other
effect (lines 40-42); when it was false the call clears `cancel` (line 44)
and spawns a producer thread (line 47), which begins life before
`Runtime::new` has resolved.  The listener passed by the caller is modelled
by the `listenerLog` ghost history. -/
def TickerEngine.start_tracking (s : SysState) (symbols : List String) :
    SysState :=
  if symbols.isEmpty then s
  else if s.running then s
  else
    { s with running := true, cancel := false
             producers := s.producers ++ [ProducerPhase.starting symbols] }

/-- `TickerEngine::cancel` (engine.rs lines 94-96): unconditionally store
true into the cancel flag. -/
def TickerEngine.cancel (s : SysState) : SysState := { s with cancel := true }

/-- `TickerEngine::drain_updates` (engine.rs lines 98-114): lock the queue
(recovering a poisoned lock, which cannot arise in-system), pop up to `max`
items from the front, and return them in pop order.  `max` is a `u32` in the
source; its numeric range is irrelevant to every property stated here, so it
is modelled as a natural number. -/
def TickerEngine.drain_updates (s : SysState) (max : Nat) :
    SysState × List PriceUpdate :=
  let r := drainLoop max s.queue
  ({ s with queue := r.2, drainedLog := s.drainedLog ++ r.1 }, r.1)

/-- Transition labels: the three caller operations plus the producer
micro-steps. -/
inductive Act where
  | start (symbols : List String)
  | cancel
  | drain (max : Nat)
  | initFail
  | initOk (ctx : List (String × ℚ)) (bases : List ℚ)
  | checkCancel
  | listen (d : ℚ) (t : Int)
  | enqueue
  | stepDone
  | wake
deriving DecidableEq, Repr

/-- Whether a label is a `start_tracking` call (used to restrict executions
to a single run). -/
def Act.isStart : Act → Bool
  | .start _ => true
  | _ => false

/-- Whether a label is the successful-runtime-creation step. -/
def Act.isInitOk : Act → Bool
  | .initOk _ _ => true
  | _ => false

/-- Whether a label is a listener invocation. -/
def Act.isListen : Act → Bool
  | .listen _ _ => true
  | _ => false

/-- Whether a label is a queue push. -/
def Act.isEnqueue : Act → Bool
  | .enqueue => true
  | _ => false

/-- One transition of the system.  Caller operations apply the functions
above; producer micro-steps act on one live producer (at an arbitrary
position in `producers` — singleness is proved, not assumed):
* `initFail`: `Runtime::new` returned `Err` (engine.rs lines 50-54) — the
  thread stores false into `running` and terminates without running a step.
* `initOk`: `Runtime::new` succeeded and the per-run map was seeded
  (lines 57-65); `ctx` is the map in its iteration order, an arbitrary
  permutation of the insert-overwrite collect, with one base price per input
  element drawn from [90,110).
* `checkCancel`: the `while !cancel` test (line 67) — exit and store false
  into `running` (line 88) when set, otherwise begin the `for` loop.
* `listen`: lines 68-78 for one symbol — draw a delta in [-1,1), clamp the
  new price at the floor, build the update and synchronously invoke the
  listener.
* `enqueue`: lines 80-82 — push that same update onto the shared queue.
* `stepDone` / `wake`: enter and leave the 500 ms sleep (line 85). -/
inductive Step : SysState → Act → SysState → Prop where
  | start (s : SysState) (symbols : List String) :
      Step s (.start symbols) (TickerEngine.start_tracking s symbols)
  | cancelOp (s : SysState) :
      Step s .cancel (TickerEngine.cancel s)
  | drainOp (s : SysState) (max : Nat) :
      Step s (.drain max) (TickerEngine.drain_updates s max).1
  | initFail (s : SysState) (pre post : List ProducerPhase)
      (symbols : List String) :
      s.producers = pre ++ ProducerPhase.starting symbols :: post →
      Step s .initFail
        { s with running := false, producers := pre ++ post }
  | initOk (s : SysState) (pre post : List ProducerPhase)
      (symbols : List String) (ctx : List (String × ℚ)) (bases : List ℚ) :
      s.producers = pre ++ ProducerPhase.starting symbols :: post →
      bases.length = symbols.length →
      (∀ b ∈ bases, 90 ≤ b ∧ b < 110) →
      ctx.Perm (collectPrices symbols bases) →
      Step s (.initOk ctx bases)
        { s with producers := pre ++ ProducerPhase.checking ctx :: post }
  | checkTrue (s : SysState) (pre post : List ProducerPhase)
      (ctx : List (String × ℚ)) :
      s.cancel = true →
      s.producers = pre ++ ProducerPhase.checking ctx :: post →
      Step s .checkCancel
        { s with running := false, producers := pre ++ post }
  | checkFalse (s : SysState) (pre post : List ProducerPhase)
      (ctx : List (String × ℚ)) :
      s.cancel = false →
      s.producers = pre ++ ProducerPhase.checking ctx :: post →
      Step s .checkCancel
        { s with producers := pre ++ ProducerPhase.stepping [] ctx :: post }
  | listen (s : SysState) (pre post : List ProducerPhase)
      (done todo : List (String × ℚ)) (sym : String) (p d : ℚ) (t : Int) :
      s.producers =
        pre ++ ProducerPhase.stepping done ((sym, p) :: todo) :: post →
      -1 ≤ d → d < 1 →
      Step s (.listen d t)
        { s with
            producers := pre ++
              ProducerPhase.enqueuing (done ++ [(sym, newPrice p d)]) todo
                ⟨sym, newPrice p d, t⟩ :: post
            listenerLog := s.listenerLog ++ [⟨sym, newPrice p d, t⟩] }
  | enqueue (s : SysState) (pre post : List ProducerPhase)
      (done todo : List (String × ℚ)) (u : PriceUpdate) :
      s.producers = pre ++ ProducerPhase.enqueuing done todo u :: post →
      Step s .enqueue
        { s with
            producers := pre ++ ProducerPhase.stepping done todo :: post
            queue := s.queue ++ [u]
            enqueuedLog := s.enqueuedLog ++ [u] }
  | stepDone (s : SysState) (pre post : List ProducerPhase)
      (done : List (String × ℚ)) :
      s.producers = pre ++ ProducerPhase.stepping done [] :: post →
      Step s .stepDone
        { s with producers := pre ++ ProducerPhase.sleeping done :: post }
  | wake (s : SysState) (pre post : List ProducerPhase)
      (ctx : List (String × ℚ)) :
      s.producers = pre ++ ProducerPhase.sleeping ctx :: post →
      Step s .wake
        { s with producers := pre ++ ProducerPhase.checking ctx :: post }

/-- A finite execution: a labelled path through `Step`. -/
inductive Exec : SysState → List Act → SysState → Prop where
  | nil (s : SysState) : Exec s [] s
  | cons {s s2 s3 : SysState} {a : Act} {as : List Act} :
      Step s a s2 → Exec s2 as s3 → Exec s (a :: as) s3

/-- A state reachable from a fresh engine. -/
def Reachable (s : SysState) : Prop :=
  ∃ ls, Exec TickerEngine.new ls s

/-- The update a producer phase has delivered to the listener but not yet
pushed onto the queue. -/
def phasePending : ProducerPhase → List PriceUpdate
  | .enqueuing _ _ u => [u]
  | _ => []

/-- All updates delivered to the listener but not yet enqueued. -/
def pendingOf (l : List ProducerPhase) : List PriceUpdate :=
  (l.map phasePending).flatten

/-- Global invariant of the engine, established at `TickerEngine.new` and
preserved by every transition: at most one live producer; a live producer
implies the running flag; every update handed to the listener respects the
price floor; the queue pushes are exactly the listener deliveries minus the
at-most-one pending update; and the drain history plus the current queue is
exactly the push history. -/
structure Inv (s : SysState) : Prop where
  one_producer : s.producers.length ≤ 1
  running_of_active : s.producers ≠ [] → s.running = true
  floor_log : ∀ u ∈ s.listenerLog, priceFloor ≤ u.price
  pending_eq : s.listenerLog = s.enqueuedLog ++ pendingOf s.producers
  drain_split : s.drainedLog ++ s.queue = s.enqueuedLog

theorem singleton_of_len_le_one {α : Type} {pre post : List α} {x : α}
    (h : (pre ++ x :: post).length ≤ 1) : pre = [] ∧ post = [] := by
  cases pre with
  | nil =>
    cases post with
    | nil => exact ⟨rfl, rfl⟩
    | cons y ys => simp at h
  | cons y ys => simp [List.length_append] at h

theorem drainLoop_eq (n : Nat) (q : List PriceUpdate) :
    drainLoop n q = (q.take n, q.drop n) := by
  induction n generalizing q with
  | zero => simp [drainLoop]
  | succ n ih =>
    cases q with
    | nil => simp [drainLoop]
    | cons u q => simp [drainLoop, ih]

theorem inv_new : Inv TickerEngine.new := by
  refine ⟨?_, ?_, ?_, ?_, ?_⟩ <;>
    simp [TickerEngine.new, pendingOf]

theorem inv_set_phase {s : SysState} (hs : Inv s) (ph ph2 : ProducerPhase)
    (hp : s.producers = [ph]) (hpd : phasePending ph2 = phasePending ph) :
    Inv { s with producers := [ph2] } := by
  refine ⟨by simp, ?_, hs.floor_log, ?_, hs.drain_split⟩
  · intro _
    exact hs.running_of_active (by rw [hp]; simp)
  · have h2 := hs.pending_eq
    rw [hp] at h2
    show s.listenerLog = s.enqueuedLog ++ pendingOf [ph2]
    simpa [pendingOf, hpd] using h2

theorem inv_exit {s : SysState} (hs : Inv s) (ph : ProducerPhase)
    (hp : s.producers = [ph]) (hpd : phasePending ph = []) :
    Inv { s with running := false, producers := [] } := by
  refine ⟨by simp, by intro h2; exact absurd rfl h2, hs.floor_log, ?_,
    hs.drain_split⟩
  have h2 := hs.pending_eq
  rw [hp] at h2
  show s.listenerLog = s.enqueuedLog ++ pendingOf []
  simpa [pendingOf, hpd] using h2

theorem inv_step {s s2 : SysState} {a : Act} (hs : Inv s) (h : Step s a s2) :
    Inv s2 := by
  cases h with
  | start symbols =>
    by_cases he : symbols.isEmpty = true
    · simpa [TickerEngine.start_tracking, he] using hs
    · by_cases hr : s.running = true
      · simpa [TickerEngine.start_tracking, he, hr] using hs
      · have hnil : s.producers = [] := by
          by_contra hne
          exact hr (hs.running_of_active hne)
        have h2 := hs.pending_eq
        rw [hnil] at h2
        simp [pendingOf] at h2
        refine ⟨?_, ?_, ?_, ?_, ?_⟩
        · simp [TickerEngine.start_tracking, he, hr, hnil]
        · intro _
          simp [TickerEngine.start_tracking, he, hr]
        · intro u hu
          refine hs.floor_log u ?_
          simpa [TickerEngine.start_tracking, he, hr] using hu
        · show (TickerEngine.start_tracking s symbols).listenerLog = _
          simp [TickerEngine.start_tracking, he, hr, hnil, pendingOf,
            phasePending, h2]
        · simpa [TickerEngine.start_tracking, he, hr] using hs.drain_split
  | cancelOp =>
    exact ⟨hs.one_producer, hs.running_of_active, hs.floor_log,
      hs.pending_eq, hs.drain_split⟩
  | drainOp max =>
    refine ⟨hs.one_producer, hs.running_of_active, hs.floor_log,
      hs.pending_eq, ?_⟩
    show (TickerEngine.drain_updates s max).1.drainedLog ++
        (TickerEngine.drain_updates s max).1.queue = s.enqueuedLog
    rw [show (TickerEngine.drain_updates s max).1.drainedLog =
        s.drainedLog ++ s.queue.take max by
      simp [TickerEngine.drain_updates, drainLoop_eq]]
    rw [show (TickerEngine.drain_updates s max).1.queue =
        s.queue.drop max by simp [TickerEngine.drain_updates, drainLoop_eq]]
    rw [List.append_assoc, List.take_append_drop]
    exact hs.drain_split
  | initFail pre post symbols hp =>
    obtain ⟨hpre, hpost⟩ := singleton_of_len_le_one (hp ▸ hs.one_producer)
    subst hpre; subst hpost
    simpa using inv_exit hs (ProducerPhase.starting symbols) (by simpa using hp) rfl
  | initOk pre post symbols ctx bases hp hlen hb hperm =>
    obtain ⟨hpre, hpost⟩ := singleton_of_len_le_one (hp ▸ hs.one_producer)
    subst hpre; subst hpost
    simpa using inv_set_phase hs (ProducerPhase.starting symbols)
      (ProducerPhase.checking ctx) (by simpa using hp) rfl
  | checkTrue pre post ctx hc hp =>
    obtain ⟨hpre, hpost⟩ := singleton_of_len_le_one (hp ▸ hs.one_producer)
    subst hpre; subst hpost
    simpa using inv_exit hs (ProducerPhase.checking ctx) (by simpa using hp) rfl
  | checkFalse pre post ctx hc hp =>
    obtain ⟨hpre, hpost⟩ := singleton_of_len_le_one (hp ▸ hs.one_producer)
    subst hpre; subst hpost
    simpa using inv_set_phase hs (ProducerPhase.checking ctx)
      (ProducerPhase.stepping [] ctx) (by simpa using hp) rfl
  | listen pre post done todo sym p d t hp hd1 hd2 =>
    obtain ⟨hpre, hpost⟩ := singleton_of_len_le_one (hp ▸ hs.one_producer)
    subst hpre; subst hpost
    have hp2 : s.producers =
        [ProducerPhase.stepping done ((sym, p) :: todo)] := by simpa using hp
    have h2 := hs.pending_eq
    rw [hp2] at h2
    simp [pendingOf, phasePending] at h2
    refine ⟨by simp, ?_, ?_, ?_, hs.drain_split⟩
    · intro _
      exact hs.running_of_active (by rw [hp2]; simp)
    · intro u hu
      simp at hu
      rcases hu with hu | hu
      · exact hs.floor_log u hu
      · rw [hu]
        exact le_max_right _ _
    · show s.listenerLog ++ [⟨sym, newPrice p d, t⟩] = s.enqueuedLog ++ _
      simp [pendingOf, phasePending, h2]
  | enqueue pre post done todo u hp =>
    obtain ⟨hpre, hpost⟩ := singleton_of_len_le_one (hp ▸ hs.one_producer)
    subst hpre; subst hpost
    have hp2 : s.producers = [ProducerPhase.enqueuing done todo u] := by
      simpa using hp
    have h2 := hs.pending_eq
    rw [hp2] at h2
    simp [pendingOf, phasePending] at h2
    refine ⟨by simp, ?_, hs.floor_log, ?_, ?_⟩
    · intro _
      exact hs.running_of_active (by rw [hp2]; simp)
    · show s.listenerLog = (s.enqueuedLog ++ [u]) ++ _
      simp [pendingOf, phasePending, h2]
    · show s.drainedLog ++ (s.queue ++ [u]) = s.enqueuedLog ++ [u]
      rw [← List.append_assoc, hs.drain_split]
  | stepDone pre post done hp =>
    obtain ⟨hpre, hpost⟩ := singleton_of_len_le_one (hp ▸ hs.one_producer)
    subst hpre; subst hpost
    simpa using inv_set_phase hs (ProducerPhase.stepping done [])
      (ProducerPhase.sleeping done) (by simpa using hp) rfl
  | wake pre post ctx hp =>
    obtain ⟨hpre, hpost⟩ := singleton_of_len_le_one (hp ▸ hs.one_producer)
    subst hpre; subst hpost
    simpa using inv_set_phase hs (ProducerPhase.sleeping ctx)
      (ProducerPhase.checking ctx) (by simpa using hp) rfl

theorem inv_exec {s s2 : SysState} {ls : List Act} (hs : Inv s)
    (h : Exec s ls s2) : Inv s2 := by
  induction h with
  | nil s => exact hs
  | cons hstep _ ih => exact ih (inv_step hs hstep)

theorem inv_reachable {s : SysState} (h : Reachable s) : Inv s := by
  obtain ⟨ls, hexec⟩ := h
  exact inv_exec inv_new hexec

theorem pendingOf_len_le {l : List ProducerPhase} (h : l.length ≤ 1) :
    (pendingOf l).length ≤ 1 := by
  cases l with
  | nil => simp [pendingOf]
  | cons ph rest =>
    cases rest with
    | nil => cases ph <;> simp [pendingOf, phasePending]
    | cons ph2 rest2 => simp at h

/-- A concrete five-step run used to witness the claim theorems: start
tracking the single symbol "AAPL", seed its base price at 100, pass the
cancel check, deliver one update with delta 0 to the listener, and push it
onto the queue. -/
def traceState1 : SysState :=
  TickerEngine.start_tracking TickerEngine.new ["AAPL"]

/-- Iteration order of the sample run's symbol-to-price map. -/
def sampleCtx : List (String × ℚ) := [("AAPL", 100)]

/-- Sample run after the producer seeded its map. -/
def traceState2 : SysState :=
  { traceState1 with producers := [ProducerPhase.checking sampleCtx] }

/-- Sample run after the producer passed the cancel check. -/
def traceState3 : SysState :=
  { traceState2 with producers := [ProducerPhase.stepping [] sampleCtx] }

/-- The one update emitted by the sample run (delta 0, timestamp 0). -/
def sampleUpdate : PriceUpdate := ⟨"AAPL", newPrice 100 0, 0⟩

/-- Sample run after the listener was invoked, before the queue push. -/
def traceState4 : SysState :=
  { traceState3 with
      producers :=
        [ProducerPhase.enqueuing [("AAPL", newPrice 100 0)] [] sampleUpdate]
      listenerLog := [sampleUpdate] }

/-- Sample run after the update was pushed onto the queue. -/
def traceState5 : SysState :=
  { traceState4 with
      producers := [ProducerPhase.stepping [("AAPL", newPrice 100 0)] []]
      queue := [sampleUpdate]
      enqueuedLog := [sampleUpdate] }

theorem step_trace_0_1 :
    Step TickerEngine.new (Act.start ["AAPL"]) traceState1 :=
  Step.start TickerEngine.new ["AAPL"]

theorem step_trace_1_2 :
    Step traceState1 (Act.initOk sampleCtx [100]) traceState2 := by
  have h := Step.initOk traceState1 [] [] ["AAPL"] sampleCtx [100] rfl rfl
    (by intro b hb; simp at hb; subst hb; norm_num)
    (by decide)
  exact h

theorem step_trace_2_3 : Step traceState2 Act.checkCancel traceState3 := by
  have h := Step.checkFalse traceState2 [] [] sampleCtx rfl rfl
  exact h

theorem step_trace_3_4 :
    Step traceState3 (Act.listen 0 0) traceState4 := by
  have h := Step.listen traceState3 [] [] [] [] "AAPL" 100 0 0 rfl
    (by norm_num) (by norm_num)
  exact h

theorem step_trace_4_5 : Step traceState4 Act.enqueue traceState5 := by
  have h := Step.enqueue traceState4 [] [] [("AAPL", newPrice 100 0)] []
    sampleUpdate rfl
  exact h

theorem reach_traceState1 : Reachable traceState1 :=
  ⟨[Act.start ["AAPL"]], Exec.cons step_trace_0_1 (Exec.nil _)⟩

theorem reach_traceState4 : Reachable traceState4 :=
  ⟨_, Exec.cons step_trace_0_1 (Exec.cons step_trace_1_2
    (Exec.cons step_trace_2_3 (Exec.cons step_trace_3_4 (Exec.nil _))))⟩

theorem reach_traceState5 : Reachable traceState5 :=
  ⟨_, Exec.cons step_trace_0_1 (Exec.cons step_trace_1_2
    (Exec.cons step_trace_2_3 (Exec.cons step_trace_3_4
      (Exec.cons step_trace_4_5 (Exec.nil _)))))⟩

/-- C1: at most one producer run is ever active per engine instance.  In
every reachable state the list of live producers has length at most one
(the running flag, acquired by the single atomic test-and-set
`running.swap(true)` at engine.rs line 40, is held by at most one producer),
and a `start_tracking` call made while the running flag is set returns the
state completely unchanged: no producer is spawned, the cancel flag is not
cleared, and there is no other observable effect. -/
theorem C1_single_producer (s : SysState) (h : Reachable s) :
    s.producers.length ≤ 1 ∧
    (∀ symbols, s.running = true →
      TickerEngine.start_tracking s symbols = s) := by
  refine ⟨(inv_reachable h).one_producer, ?_⟩
  intro symbols hr
  by_cases he : symbols.isEmpty = true <;>
    simp [TickerEngine.start_tracking, he, hr]

theorem C1_single_producer_witness :
    traceState1.producers.length ≤ 1 ∧
    TickerEngine.start_tracking traceState1 ["GOOG"] = traceState1 :=
  ⟨(C1_single_producer traceState1 reach_traceState1).1,
   (C1_single_producer traceState1 reach_traceState1).2 ["GOOG"] rfl⟩

/-- C2: every update the producer emits — to the listener, into the push
history, or still sitting in the queue — has a price at least the floor
0.01 (hence strictly positive), for any sequence of simulation steps and
random deltas: each step stores `(price + delta).max(0.01)`
(engine.rs line 70). -/
theorem C2_price_floor (s : SysState) (h : Reachable s) :
    (∀ u ∈ s.listenerLog, priceFloor ≤ u.price) ∧
    (∀ u ∈ s.enqueuedLog, priceFloor ≤ u.price) ∧
    (∀ u ∈ s.queue, priceFloor ≤ u.price) ∧ 0 < priceFloor := by
  have hi := inv_reachable h
  have henq : ∀ u ∈ s.enqueuedLog, priceFloor ≤ u.price := by
    intro u hu
    refine hi.floor_log u ?_
    rw [hi.pending_eq]
    exact List.mem_append_left _ hu
  refine ⟨hi.floor_log, henq, ?_, by norm_num [priceFloor]⟩
  intro u hu
  refine henq u ?_
  rw [← hi.drain_split]
  exact List.mem_append_right _ hu

theorem C2_price_floor_witness : priceFloor ≤ sampleUpdate.price :=
  (C2_price_floor traceState5 reach_traceState5).1 sampleUpdate
    (List.mem_singleton.mpr rfl)

/-- C3: `drain_updates max` removes and returns exactly the first
`min max (queue length)` items of the queue, in FIFO order, and removes
precisely the items it returns (their concatenation with the remaining queue
restores the original queue).  Moreover in every reachable state the
concatenation of all past drain results with the current queue equals the
full enqueue history, so arbitrary sequences of drains yield the enqueued
updates in order, with no duplicates and no gaps. -/
theorem C3_drain_fifo (s : SysState) (h : Reachable s) (max : Nat) :
    (TickerEngine.drain_updates s max).2 = s.queue.take max ∧
    (TickerEngine.drain_updates s max).1.queue = s.queue.drop max ∧
    (TickerEngine.drain_updates s max).2.length = min max s.queue.length ∧
    s.queue.take max ++ s.queue.drop max = s.queue ∧
    s.drainedLog ++ s.queue = s.enqueuedLog := by
  refine ⟨by simp [TickerEngine.drain_updates, drainLoop_eq],
    by simp [TickerEngine.drain_updates, drainLoop_eq],
    by simp [TickerEngine.drain_updates, drainLoop_eq],
    List.take_append_drop max s.queue, (inv_reachable h).drain_split⟩

theorem C3_drain_fifo_witness :
    (TickerEngine.drain_updates traceState5 2).2 = [sampleUpdate] ∧
    (TickerEngine.drain_updates traceState5 2).1.queue = [] ∧
    (TickerEngine.drain_updates traceState5 2).2.length = 1 := by
  have h := C3_drain_fifo traceState5 reach_traceState5 2
  refine ⟨?_, ?_, ?_⟩
  · rw [h.1]; rfl
  · rw [h.2.1]; rfl
  · rw [h.2.2.1]; rfl

/-- C4 (evaluation of the code at the failing input): the producer-side
enqueue (engine.rs lines 80-82) is `if let Ok(mut queue) = lock() { push }`,
so with a poisoned lock the update is silently dropped — the queue is left
unchanged — while with a healthy lock it is appended; the drain side, in
contrast, recovers a poisoned lock and keeps the queue contents.  This
contradicts the claim that an update is appended even when the lock was
poisoned. -/
theorem C4_poisoned_enqueue_drops :
    enqueue_update true [] ⟨"AAPL", 100, 0⟩ = [] ∧
    enqueue_update false [] ⟨"AAPL", 100, 0⟩ = [⟨"AAPL", 100, 0⟩] ∧
    drain_lock true [⟨"AAPL", 100, 0⟩] = [⟨"AAPL", 100, 0⟩] :=
  ⟨rfl, rfl, rfl⟩

/-- C6: `start_tracking` with an empty symbols list returns the state
unchanged (engine.rs lines 36-38): the running flag is not set, no producer
run is acquired or spawned, the listener history, cancel flag and queue are
untouched, and no error is returned (the operation is total). -/
theorem C6_empty_start_noop (s : SysState) :
    TickerEngine.start_tracking s [] = s := by
  simp [TickerEngine.start_tracking]

/-- C9: deliveries are sequential in a fixed order, listener first, queue
second: in every reachable state the queue-push history is a prefix of the
listener-invocation history, the two agreeing except for at most one update
already handed to the listener (engine.rs line 78) whose queue push
(engine.rs lines 80-82) has not yet executed. -/
theorem C9_listener_before_enqueue (s : SysState) (h : Reachable s) :
    ∃ pending, s.listenerLog = s.enqueuedLog ++ pending ∧
      pending.length ≤ 1 := by
  have hi := inv_reachable h
  exact ⟨pendingOf s.producers, hi.pending_eq,
    pendingOf_len_le hi.one_producer⟩

theorem C9_listener_before_enqueue_witness :
    ∃ pending, traceState4.listenerLog = traceState4.enqueuedLog ++ pending ∧
      pending.length ≤ 1 :=
  C9_listener_before_enqueue traceState4 reach_traceState4

theorem insertPrice_fst (m : List (String × ℚ)) (k : String) (v : ℚ) :
    (insertPrice m k v).map Prod.fst =
      if k ∈ m.map Prod.fst then m.map Prod.fst
      else m.map Prod.fst ++ [k] := by
  unfold insertPrice
  split
  · rw [List.map_map]
    congr 1
    funext e
    by_cases he : e.1 = k <;> simp [he]
  · simp

theorem insertPrice_nodup {m : List (String × ℚ)} (k : String) (v : ℚ)
    (h : (m.map Prod.fst).Nodup) :
    ((insertPrice m k v).map Prod.fst).Nodup := by
  rw [insertPrice_fst]
  split
  · exact h
  · next hk =>
    rw [List.nodup_append]
    refine ⟨h, List.nodup_singleton k, ?_⟩
    intro a ha hb
    simp at hb
    subst hb
    exact hk ha

theorem insertPrice_mem (m : List (String × ℚ)) (k : String) (v : ℚ)
    (a : String) :
    a ∈ (insertPrice m k v).map Prod.fst ↔
      a ∈ m.map Prod.fst ∨ a = k := by
  rw [insertPrice_fst]
  split
  · next hk =>
    constructor
    · exact Or.inl
    · rintro (h | rfl)
      · exact h
      · exact hk
  · simp

theorem collect_foldl_keys (l : List (String × ℚ)) (m : List (String × ℚ))
    (hm : (m.map Prod.fst).Nodup) :
    ((l.foldl (fun m2 e => insertPrice m2 e.1 e.2) m).map Prod.fst).Nodup ∧
    (∀ a, a ∈ (l.foldl (fun m2 e => insertPrice m2 e.1 e.2) m).map Prod.fst ↔
      a ∈ m.map Prod.fst ∨ a ∈ l.map Prod.fst) := by
  induction l generalizing m with
  | nil => simp [hm]
  | cons e l ih =>
    have h1 := ih (insertPrice m e.1 e.2) (insertPrice_nodup _ _ hm)
    refine ⟨h1.1, ?_⟩
    intro a
    rw [List.foldl_cons, h1.2 a, insertPrice_mem]
    simp
    tauto

theorem collectPrices_keys_nodup (symbols : List String) (bases : List ℚ) :
    ((collectPrices symbols bases).map Prod.fst).Nodup :=
  (collect_foldl_keys (symbols.zip bases) [] (by simp)).1

theorem collectPrices_keys_mem (symbols : List String) (bases : List ℚ)
    (hlen : bases.length = symbols.length) (a : String) :
    a ∈ (collectPrices symbols bases).map Prod.fst ↔ a ∈ symbols := by
  rw [collectPrices,
    (collect_foldl_keys (symbols.zip bases) [] (by simp)).2 a]
  rw [List.map_fst_zip symbols bases (le_of_eq hlen.symm)]
  simp

theorem collectPrices_keys_perm_dedup (symbols : List String)
    (bases : List ℚ) (hlen : bases.length = symbols.length) :
    ((collectPrices symbols bases).map Prod.fst).Perm symbols.dedup := by
  rw [List.perm_ext_iff_of_nodup (collectPrices_keys_nodup symbols bases)
    (List.nodup_dedup symbols)]
  intro a
  rw [collectPrices_keys_mem symbols bases hlen a, List.mem_dedup]

/-- C10: duplicate entries in the symbols list are collapsed when the
per-run symbol-to-price map is built (the `HashMap` collect at engine.rs
lines 59-65 overwrites on duplicate keys): whenever a producer seeds its
map for input `symbols`, the resulting iteration-order context has pairwise
distinct keys, exactly one entry for each distinct element of `symbols`
(and none for any other symbol), and its size is the number of distinct
symbols — hence each step of the loop at lines 68-83 emits one update and
one listener invocation per distinct symbol, not per list element. -/
theorem singleton_eq_append_cons {α : Type} {x y : α}
    {pre post : List α} (h : [x] = pre ++ y :: post) :
    pre = [] ∧ y = x ∧ post = [] := by
  cases pre with
  | nil =>
    simp only [List.nil_append, List.cons.injEq] at h
    exact ⟨rfl, h.1.symm, h.2.symm⟩
  | cons a pre2 =>
    simp only [List.cons_append, List.cons.injEq] at h
    exact absurd h.2 (by simp)

theorem C10_duplicates_collapsed {s s2 : SysState}
    {ctx : List (String × ℚ)} {bases : List ℚ} (symbols : List String)
    (hp : s.producers = [ProducerPhase.starting symbols])
    (h : Step s (Act.initOk ctx bases) s2) :
    (ctx.map Prod.fst).Nodup ∧
    (∀ a, a ∈ ctx.map Prod.fst ↔ a ∈ symbols) ∧
    (∀ a ∈ symbols, (ctx.map Prod.fst).count a = 1) ∧
    ctx.length = symbols.dedup.length := by
  cases h with
  | initOk pre post symbols2 ctx2 bases2 hp2 hlen hb hperm =>
    rw [hp] at hp2
    obtain ⟨hpre, hsy, hpost⟩ := singleton_eq_append_cons hp2
    have hsy2 : symbols2 = symbols := by
      injection hsy
    subst hsy2
    have hmapperm := hperm.map Prod.fst
    have hnd : (ctx.map Prod.fst).Nodup :=
      hmapperm.nodup_iff.mpr (collectPrices_keys_nodup symbols2 bases)
    have hmem : ∀ a, a ∈ ctx.map Prod.fst ↔ a ∈ symbols2 := fun a =>
      hmapperm.mem_iff.trans (collectPrices_keys_mem symbols2 bases hlen a)
    refine ⟨hnd, hmem, ?_, ?_⟩
    · intro a ha
      exact List.count_eq_one_of_mem hnd ((hmem a).mpr ha)
    · have h3 := (hmapperm.trans
        (collectPrices_keys_perm_dedup symbols2 bases hlen)).length_eq
      simpa using h3

/-- A start of the sample engine on a symbols list with a duplicate entry,
used to witness the duplicate-collapse claim. -/
def dupState1 : SysState :=
  TickerEngine.start_tracking TickerEngine.new ["AAPL", "AAPL"]

/-- Iteration order of the duplicate run's map: one entry, holding the
base price drawn for the later duplicate. -/
def dupCtx : List (String × ℚ) := [("AAPL", 99)]

/-- Duplicate run after the producer seeded its map. -/
def dupState2 : SysState :=
  { dupState1 with producers := [ProducerPhase.checking dupCtx] }

theorem step_dup_1_2 :
    Step dupState1 (Act.initOk dupCtx [100, 99]) dupState2 := by
  have h := Step.initOk dupState1 [] [] ["AAPL", "AAPL"] dupCtx [100, 99]
    rfl rfl
    (by intro b hb; simp at hb; rcases hb with rfl | rfl <;> norm_num)
    (by decide)
  exact h

theorem nil_producers_no_phase {s : SysState} {pre post : List ProducerPhase}
    {ph : ProducerPhase} (hnil : s.producers = [])
    (hp : s.producers = pre ++ ph :: post) : False := by
  rw [hnil] at hp
  exact List.cons_ne_nil ph post (List.append_eq_nil.mp hp.symm).2

theorem startup_phase_only {s : SysState} {pre post : List ProducerPhase}
    {ph : ProducerPhase} {symbols : List String}
    (hinv : s.producers = [ProducerPhase.starting symbols] ∨
      (s.producers = [] ∧ s.running = false))
    (hp : s.producers = pre ++ ph :: post)
    (hne : ph ≠ ProducerPhase.starting symbols) : False := by
  rcases hinv with h | h
  · rw [h] at hp
    obtain ⟨h1, h2, h3⟩ := singleton_eq_append_cons hp
    exact hne h2
  · exact nil_producers_no_phase h.1 hp

theorem startup_failure_step {s s2 : SysState} {a : Act}
    (symbols : List String) (hstep : Step s a s2)
    (hs : a.isStart = false) (hi : a.isInitOk = false)
    (hinv : s.producers = [ProducerPhase.starting symbols] ∨
      (s.producers = [] ∧ s.running = false)) :
    s2.listenerLog = s.listenerLog ∧ s2.enqueuedLog = s.enqueuedLog ∧
    (s2.producers = [ProducerPhase.starting symbols] ∨
      (s2.producers = [] ∧ s2.running = false)) ∧
    (a = Act.initFail → s2.producers = [] ∧ s2.running = false) ∧
    (s.producers = [] ∧ s.running = false →
      s2.producers = [] ∧ s2.running = false) := by
  cases hstep with
  | start symbols2 => simp [Act.isStart] at hs
  | cancelOp =>
    refine ⟨rfl, rfl, ?_, ?_, ?_⟩
    · exact hinv
    · intro h2; cases h2
    · exact fun h2 => h2
  | drainOp max =>
    refine ⟨rfl, rfl, ?_, ?_, ?_⟩
    · exact hinv
    · intro h2; cases h2
    · exact fun h2 => h2
  | initFail pre post symbols2 hp =>
    rcases hinv with h | h
    · rw [h] at hp
      obtain ⟨h1, h2, h3⟩ := singleton_eq_append_cons hp
      subst h1; subst h3
      exact ⟨rfl, rfl, Or.inr ⟨by simp, rfl⟩, fun _ => ⟨by simp, rfl⟩,
        by intro h4; rw [h] at h4; simp at h4⟩
    · exact (nil_producers_no_phase h.1 hp).elim
  | initOk pre post symbols2 ctx bases hp hlen hb hperm =>
    simp [Act.isInitOk] at hi
  | checkTrue pre post ctx hc hp =>
    exact (startup_phase_only hinv hp (by simp)).elim
  | checkFalse pre post ctx hc hp =>
    exact (startup_phase_only hinv hp (by simp)).elim
  | listen pre post done todo sym p d t hp hd1 hd2 =>
    exact (startup_phase_only hinv hp (by simp)).elim
  | enqueue pre post done todo u hp =>
    exact (startup_phase_only hinv hp (by simp)).elim
  | stepDone pre post done hp =>
    exact (startup_phase_only hinv hp (by simp)).elim
  | wake pre post ctx hp =>
    exact (startup_phase_only hinv hp (by simp)).elim

theorem startup_failure_aux (symbols : List String) :
    ∀ {s s2 : SysState} {ls : List Act}, Exec s ls s2 →
    (s.producers = [ProducerPhase.starting symbols] ∨
      (s.producers = [] ∧ s.running = false)) →
    (∀ a ∈ ls, a.isStart = false) →
    (∀ a ∈ ls, a.isInitOk = false) →
    s2.listenerLog = s.listenerLog ∧ s2.enqueuedLog = s.enqueuedLog ∧
    (Act.initFail ∈ ls → s2.producers = [] ∧ s2.running = false) := by
  intro s s2 ls hexec
  induction hexec with
  | nil s =>
    intro hinv hns hni
    exact ⟨rfl, rfl, by intro hmem; simp at hmem⟩
  | cons hstep hrest ih =>
    intro hinv hns hni
    have hstep2 := startup_failure_step symbols hstep
      (hns _ (List.mem_cons_self _ _)) (hni _ (List.mem_cons_self _ _)) hinv
    have ih2 := ih hstep2.2.2.1
      (fun a ha => hns a (List.mem_cons_of_mem _ ha))
      (fun a ha => hni a (List.mem_cons_of_mem _ ha))
    refine ⟨ih2.1.trans hstep2.1, ih2.2.1.trans hstep2.2.1, ?_⟩
    intro hmem
    rcases List.mem_cons.mp hmem with rfl | hmem2
    · -- the failing step is the first one; afterwards the producer is gone
      -- and (with no start in the rest) stays gone
      have hmid := hstep2.2.2.2.1 rfl
      -- replay the rest of the execution from the exited state
      have hkeep : ∀ {s3 s4 : SysState} {ls2 : List Act}, Exec s3 ls2 s4 →
          (∀ a ∈ ls2, a.isStart = false) → (∀ a ∈ ls2, a.isInitOk = false) →
          s3.producers = [] ∧ s3.running = false →
          s4.producers = [] ∧ s4.running = false := by
        intro s3 s4 ls2 hexec2
        induction hexec2 with
        | nil _ => intro _ _ h2; exact h2
        | cons hstep3 hrest3 ih3 =>
          intro hns2 hni2 h2
          have h3 := startup_failure_step symbols hstep3
            (hns2 _ (List.mem_cons_self _ _)) (hni2 _ (List.mem_cons_self _ _))
            (Or.inr h2)
          exact ih3 (fun a ha => hns2 a (List.mem_cons_of_mem _ ha))
            (fun a ha => hni2 a (List.mem_cons_of_mem _ ha)) (h3.2.2.2.2 h2)
      exact hkeep hrest (fun a ha => hns a (List.mem_cons_of_mem _ ha))
        (fun a ha => hni a (List.mem_cons_of_mem _ ha)) hmid
    · exact ih2.2.2 hmem2

/-- C7: if the producer's async runtime cannot be created (`Runtime::new`
returns `Err`, engine.rs lines 48-55), no simulation step executes and no
update is ever emitted or enqueued during the whole startup episode: for any
execution that begins with the producer in its pre-runtime phase and never
performs the successful-runtime step, the listener and enqueue histories are
unchanged, and once the failure step occurs the producer is gone and the
running flag has been cleared via the `running.store(false)` of the error
arm; `start_tracking` itself already returned, and being a total function it
propagates no error to the caller. -/
theorem C7_startup_failure_isolated {s s2 : SysState} {ls : List Act}
    (symbols : List String) (hexec : Exec s ls s2)
    (hp : s.producers = [ProducerPhase.starting symbols])
    (hns : ∀ a ∈ ls, a.isStart = false)
    (hni : ∀ a ∈ ls, a.isInitOk = false) :
    s2.listenerLog = s.listenerLog ∧ s2.enqueuedLog = s.enqueuedLog ∧
    (Act.initFail ∈ ls → s2.producers = [] ∧ s2.running = false) :=
  startup_failure_aux symbols hexec (Or.inl hp) hns hni

/-- The sample run's state after a failed runtime creation. -/
def failState : SysState :=
  { traceState1 with running := false, producers := [] }

theorem step_fail : Step traceState1 Act.initFail failState := by
  have h := Step.initFail traceState1 [] [] ["AAPL"] rfl
  exact h

theorem C7_startup_failure_isolated_witness :
    failState.listenerLog = traceState1.listenerLog ∧
    failState.producers = [] ∧ failState.running = false := by
  have h := C7_startup_failure_isolated ["AAPL"]
    (Exec.cons step_fail (Exec.nil failState)) rfl
    (by decide) (by decide)
  exact ⟨h.1, (h.2.2 (by decide)).1, (h.2.2 (by decide)).2⟩

theorem C10_duplicates_collapsed_witness :
    (dupCtx.map Prod.fst).Nodup ∧
    (dupCtx.map Prod.fst).count "AAPL" = 1 ∧
    dupCtx.length = (["AAPL", "AAPL"].dedup).length := by
  have h := C10_duplicates_collapsed ["AAPL", "AAPL"] rfl step_dup_1_2
  exact ⟨h.1, h.2.2.1 "AAPL" (by simp), h.2.2.2⟩

/-- Listener invocations a producer phase can still perform before it next
reaches the cancel check at engine.rs line 67 (which is checked before every
new step): the untreated entries of the current `for` pass. -/
def phaseListenCap : ProducerPhase → Nat
  | .stepping _ todo => todo.length
  | .enqueuing _ todo _ => todo.length
  | _ => 0

/-- Queue pushes a producer phase can still perform before it next reaches
the cancel check: the untreated entries of the current pass, plus the push
pending between a listener call and its enqueue. -/
def phaseEnqueueCap : ProducerPhase → Nat
  | .stepping _ todo => todo.length
  | .enqueuing _ todo _ => todo.length + 1
  | _ => 0

/-- Size of a phase's symbol-to-price map: the number of distinct tracked
symbols of the run. -/
def phaseEntries : ProducerPhase → Nat
  | .stepping done todo => done.length + todo.length
  | .enqueuing done todo _ => done.length + todo.length
  | .checking ctx => ctx.length
  | .sleeping ctx => ctx.length
  | .starting _ => 0

/-- Remaining listener invocations over all live producers. -/
def listenCap (l : List ProducerPhase) : Nat := (l.map phaseListenCap).sum

/-- Remaining queue pushes over all live producers. -/
def enqueueCap (l : List ProducerPhase) : Nat := (l.map phaseEnqueueCap).sum

/-- Map entries over all live producers. -/
def entriesCap (l : List ProducerPhase) : Nat := (l.map phaseEntries).sum

/-- Number of listener invocations in a label sequence. -/
def countListens (ls : List Act) : Nat := (ls.filter Act.isListen).length

/-- Number of queue pushes in a label sequence. -/
def countEnqueues (ls : List Act) : Nat := (ls.filter Act.isEnqueue).length

theorem listenCap_append (l1 l2 : List ProducerPhase) :
    listenCap (l1 ++ l2) = listenCap l1 + listenCap l2 := by
  simp [listenCap]

theorem listenCap_cons (ph : ProducerPhase) (l : List ProducerPhase) :
    listenCap (ph :: l) = phaseListenCap ph + listenCap l := by
  simp [listenCap]

theorem enqueueCap_append (l1 l2 : List ProducerPhase) :
    enqueueCap (l1 ++ l2) = enqueueCap l1 + enqueueCap l2 := by
  simp [enqueueCap]

theorem enqueueCap_cons (ph : ProducerPhase) (l : List ProducerPhase) :
    enqueueCap (ph :: l) = phaseEnqueueCap ph + enqueueCap l := by
  simp [enqueueCap]

theorem listenCap_nil : listenCap [] = 0 := rfl

theorem enqueueCap_nil : enqueueCap [] = 0 := rfl

theorem countListens_cons (a : Act) (as : List Act) :
    countListens (a :: as) =
      (if a.isListen then 1 else 0) + countListens as := by
  by_cases h : a.isListen <;>
    simp [countListens, List.filter_cons, h, Nat.add_comm]

theorem countEnqueues_cons (a : Act) (as : List Act) :
    countEnqueues (a :: as) =
      (if a.isEnqueue then 1 else 0) + countEnqueues as := by
  by_cases h : a.isEnqueue <;>
    simp [countEnqueues, List.filter_cons, h, Nat.add_comm]

theorem phaseListenCap_le (ph : ProducerPhase) :
    phaseListenCap ph ≤ phaseEntries ph := by
  cases ph <;> simp [phaseListenCap, phaseEntries]

theorem listenCap_le_entriesCap (l : List ProducerPhase) :
    listenCap l ≤ entriesCap l := by
  induction l with
  | nil => simp [listenCap, entriesCap]
  | cons ph l ih =>
    rw [listenCap_cons]
    have h2 : entriesCap (ph :: l) = phaseEntries ph + entriesCap l := by
      simp [entriesCap]
    rw [h2]
    exact Nat.add_le_add (phaseListenCap_le ph) ih

theorem cancel_step {s s2 : SysState} {a : Act} (hstep : Step s a s2)
    (hc : s.cancel = true) (hs : a.isStart = false) :
    s2.cancel = true ∧
    listenCap s2.producers + (if a.isListen then 1 else 0) ≤
      listenCap s.producers ∧
    enqueueCap s2.producers + (if a.isEnqueue then 1 else 0) ≤
      enqueueCap s.producers ∧
    (s.producers = [] → s2.producers = []) := by
  cases hstep with
  | start symbols => simp [Act.isStart] at hs
  | cancelOp =>
    refine ⟨rfl, ?_, ?_, fun h => h⟩
    · simp [TickerEngine.cancel, Act.isListen]
    · simp [TickerEngine.cancel, Act.isEnqueue]
  | drainOp max =>
    refine ⟨hc, ?_, ?_, fun h => h⟩
    · simp [TickerEngine.drain_updates, Act.isListen]
    · simp [TickerEngine.drain_updates, Act.isEnqueue]
  | initFail pre post symbols hp =>
    refine ⟨hc, ?_, ?_, fun h => (nil_producers_no_phase h hp).elim⟩ <;>
      rw [hp] <;>
      simp [listenCap_append, listenCap_cons, enqueueCap_append,
        enqueueCap_cons, phaseListenCap, phaseEnqueueCap, Act.isListen,
        Act.isEnqueue]
  | initOk pre post symbols ctx bases hp hlen hb hperm =>
    refine ⟨hc, ?_, ?_, fun h => (nil_producers_no_phase h hp).elim⟩ <;>
      rw [hp] <;>
      simp [listenCap_append, listenCap_cons, enqueueCap_append,
        enqueueCap_cons, phaseListenCap, phaseEnqueueCap, Act.isListen,
        Act.isEnqueue]
  | checkTrue pre post ctx hc2 hp =>
    refine ⟨hc, ?_, ?_, fun h => (nil_producers_no_phase h hp).elim⟩ <;>
      rw [hp] <;>
      simp [listenCap_append, listenCap_cons, enqueueCap_append,
        enqueueCap_cons, phaseListenCap, phaseEnqueueCap, Act.isListen,
        Act.isEnqueue]
  | checkFalse pre post ctx hc2 hp =>
    rw [hc] at hc2
    exact Bool.noConfusion hc2
  | listen pre post done todo sym p d t hp hd1 hd2 =>
    refine ⟨hc, ?_, ?_, fun h => (nil_producers_no_phase h hp).elim⟩ <;>
      rw [hp] <;>
      simp [listenCap_append, listenCap_cons, enqueueCap_append,
        enqueueCap_cons, phaseListenCap, phaseEnqueueCap, Act.isListen,
        Act.isEnqueue] <;>
      omega
  | enqueue pre post done todo u hp =>
    refine ⟨hc, ?_, ?_, fun h => (nil_producers_no_phase h hp).elim⟩ <;>
      rw [hp] <;>
      simp [listenCap_append, listenCap_cons, enqueueCap_append,
        enqueueCap_cons, phaseListenCap, phaseEnqueueCap, Act.isListen,
        Act.isEnqueue] <;>
      omega
  | stepDone pre post done hp =>
    refine ⟨hc, ?_, ?_, fun h => (nil_producers_no_phase h hp).elim⟩ <;>
      rw [hp] <;>
      simp [listenCap_append, listenCap_cons, enqueueCap_append,
        enqueueCap_cons, phaseListenCap, phaseEnqueueCap, Act.isListen,
        Act.isEnqueue]
  | wake pre post ctx hp =>
    refine ⟨hc, ?_, ?_, fun h => (nil_producers_no_phase h hp).elim⟩ <;>
      rw [hp] <;>
      simp [listenCap_append, listenCap_cons, enqueueCap_append,
        enqueueCap_cons, phaseListenCap, phaseEnqueueCap, Act.isListen,
        Act.isEnqueue]

theorem cancel_exec_aux :
    ∀ {s s2 : SysState} {ls : List Act}, Exec s ls s2 →
    s.cancel = true → (∀ a ∈ ls, a.isStart = false) →
    countListens ls + listenCap s2.producers ≤ listenCap s.producers ∧
    countEnqueues ls + enqueueCap s2.producers ≤ enqueueCap s.producers ∧
    s2.cancel = true ∧
    (s.producers = [] →
      s2.producers = [] ∧ countListens ls = 0 ∧ countEnqueues ls = 0) := by
  intro s s2 ls hexec
  induction hexec with
  | nil s =>
    intro hc hns
    refine ⟨by simp [countListens], by simp [countEnqueues], hc, ?_⟩
    intro h
    exact ⟨h, by simp [countListens], by simp [countEnqueues]⟩
  | @cons s smid s3 a as hstep hrest ih =>
    intro hc hns
    have h1 := cancel_step hstep hc (hns _ (List.mem_cons_self _ _))
    have h2 := ih h1.1 (fun a2 ha => hns a2 (List.mem_cons_of_mem _ ha))
    refine ⟨?_, ?_, h2.2.2.1, ?_⟩
    · rw [countListens_cons]
      have ha := h1.2.1
      have hb := h2.1
      omega
    · rw [countEnqueues_cons]
      have ha := h1.2.2.1
      have hb := h2.2.1
      omega
    · intro h
      have hmid := h1.2.2.2 h
      have h3 := h2.2.2.2 hmid
      have ha := h1.2.1
      have hb := h2.1
      have hc2 := h1.2.2.1
      have hd := h2.2.1
      rw [h, listenCap_nil] at ha
      rw [h, enqueueCap_nil] at hc2
      rw [hmid, listenCap_nil] at hb
      rw [hmid, enqueueCap_nil] at hd
      refine ⟨h3.1, ?_, ?_⟩
      · rw [countListens_cons]
        omega
      · rw [countEnqueues_cons]
        omega

/-- C5: cancellation converges with a bounded overshoot.  The producer
tests the cancel flag before starting each new step (engine.rs line 67; the
model has no transition beginning a step while the flag is set), so from any
state in which the flag is set, any further execution of the same run
performs at most as many listener invocations as the untreated entries of
the in-flight step — at most one per distinct tracked symbol — and at most
that many queue pushes plus the one possibly in flight; the flag stays set,
and once the producer has observed the flag and exited via
`running.store(false)` (engine.rs line 88), no listener invocation or queue
push at all happens for that run. -/
theorem C5_cancellation_converges {s s2 : SysState} {ls : List Act}
    (hexec : Exec s ls s2) (hc : s.cancel = true)
    (hns : ∀ a ∈ ls, a.isStart = false) :
    countListens ls + listenCap s2.producers ≤ listenCap s.producers ∧
    countEnqueues ls + enqueueCap s2.producers ≤ enqueueCap s.producers ∧
    listenCap s.producers ≤ entriesCap s.producers ∧
    s2.cancel = true ∧
    (s.producers = [] →
      s2.producers = [] ∧ countListens ls = 0 ∧ countEnqueues ls = 0) := by
  have h := cancel_exec_aux hexec hc hns
  exact ⟨h.1, h.2.1, listenCap_le_entriesCap _, h.2.2.1, h.2.2.2⟩

/-- Sample cancelled run: the caller cancels while the producer is at the
start of a step; the producer finishes that one step (one update for the
single tracked symbol), sleeps, wakes, observes the flag and exits. -/
def cancelState1 : SysState := TickerEngine.cancel traceState3

/-- Cancelled run after the in-flight listener invocation. -/
def cancelState2 : SysState :=
  { cancelState1 with
      producers :=
        [ProducerPhase.enqueuing [("AAPL", newPrice 100 0)] [] sampleUpdate]
      listenerLog := [sampleUpdate] }

/-- Cancelled run after the in-flight queue push. -/
def cancelState3 : SysState :=
  { cancelState2 with
      producers := [ProducerPhase.stepping [("AAPL", newPrice 100 0)] []]
      queue := [sampleUpdate]
      enqueuedLog := [sampleUpdate] }

/-- Cancelled run inside the inter-step sleep. -/
def cancelState4 : SysState :=
  { cancelState3 with
      producers := [ProducerPhase.sleeping [("AAPL", newPrice 100 0)]] }

/-- Cancelled run back at the cancel check. -/
def cancelState5 : SysState :=
  { cancelState4 with
      producers := [ProducerPhase.checking [("AAPL", newPrice 100 0)]] }

/-- Cancelled run after the producer observed the flag and exited. -/
def cancelState6 : SysState :=
  { cancelState5 with running := false, producers := [] }

/-- Labels of the cancelled run's tail. -/
def cancelActs : List Act :=
  [Act.listen 0 0, Act.enqueue, Act.stepDone, Act.wake, Act.checkCancel]

theorem step_cancel_1_2 :
    Step cancelState1 (Act.listen 0 0) cancelState2 := by
  have h := Step.listen cancelState1 [] [] [] [] "AAPL" 100 0 0 rfl
    (by norm_num) (by norm_num)
  exact h

theorem step_cancel_2_3 : Step cancelState2 Act.enqueue cancelState3 := by
  have h := Step.enqueue cancelState2 [] [] [("AAPL", newPrice 100 0)] []
    sampleUpdate rfl
  exact h

theorem step_cancel_3_4 : Step cancelState3 Act.stepDone cancelState4 := by
  have h := Step.stepDone cancelState3 [] [] [("AAPL", newPrice 100 0)] rfl
  exact h

theorem step_cancel_4_5 : Step cancelState4 Act.wake cancelState5 := by
  have h := Step.wake cancelState4 [] [] [("AAPL", newPrice 100 0)] rfl
  exact h

theorem step_cancel_5_6 : Step cancelState5 Act.checkCancel cancelState6 := by
  have h := Step.checkTrue cancelState5 [] [] [("AAPL", newPrice 100 0)]
    rfl rfl
  exact h

theorem exec_cancel : Exec cancelState1 cancelActs cancelState6 :=
  Exec.cons step_cancel_1_2 (Exec.cons step_cancel_2_3
    (Exec.cons step_cancel_3_4 (Exec.cons step_cancel_4_5
      (Exec.cons step_cancel_5_6 (Exec.nil cancelState6)))))

theorem C5_cancellation_converges_witness :
    countListens cancelActs + listenCap cancelState6.producers ≤
      listenCap cancelState1.producers ∧
    cancelState6.cancel = true := by
  have h := C5_cancellation_converges exec_cancel rfl (by decide)
  exact ⟨h.1, h.2.2.2.1⟩

/-- Keys of a phase's symbol-to-price map in iteration order: the run's
fixed symbol order (engine.rs line 68 iterates `prices.iter_mut()`, whose
order is fixed for the run since the map is never restructured). -/
def phaseKeys : ProducerPhase → List String
  | .starting _ => []
  | .checking ctx => ctx.map Prod.fst
  | .stepping done todo => done.map Prod.fst ++ todo.map Prod.fst
  | .enqueuing done todo _ => done.map Prod.fst ++ todo.map Prod.fst
  | .sleeping ctx => ctx.map Prod.fst

/-- Symbols whose update of the current step has already been handed to the
listener. -/
def phaseRound : ProducerPhase → List String
  | .stepping done _ => done.map Prod.fst
  | .enqueuing done _ _ => done.map Prod.fst
  | _ => []

/-- Current-step emissions over all live producers. -/
def roundOf (l : List ProducerPhase) : List String :=
  (l.map phaseRound).flatten

/-- Whether a phase belongs to a run whose map is already seeded. -/
def ProducerPhase.inRun : ProducerPhase → Bool
  | .starting _ => false
  | _ => true

theorem phaseRound_extends (ph : ProducerPhase) :
    ∃ t, phaseRound ph ++ t = phaseKeys ph := by
  cases ph with
  | starting symbols => exact ⟨[], rfl⟩
  | checking ctx => exact ⟨ctx.map Prod.fst, rfl⟩
  | stepping done todo => exact ⟨todo.map Prod.fst, rfl⟩
  | enqueuing done todo u => exact ⟨todo.map Prod.fst, rfl⟩
  | sleeping ctx => exact ⟨ctx.map Prod.fst, rfl⟩

theorem replicate_flatten_add (k1 k2 : Nat) (K : List String) :
    (List.replicate (k1 + k2) K).flatten =
      (List.replicate k1 K).flatten ++ (List.replicate k2 K).flatten := by
  induction k1 with
  | zero => simp
  | succ n ih =>
    rw [Nat.succ_add, List.replicate_succ, List.replicate_succ,
      List.flatten_cons, List.flatten_cons, ih, List.append_assoc]

theorem order_step {s s2 : SysState} {a : Act} {K : List String}
    (hstep : Step s a s2) (hs : a.isStart = false)
    (hinv : s.producers = [] ∨ ∃ ph, s.producers = [ph] ∧
      phaseKeys ph = K ∧ ph.inRun = true) :
    (∃ e k, s2.listenerLog = s.listenerLog ++ e ∧
      roundOf s.producers ++ e.map PriceUpdate.symbol =
        (List.replicate k K).flatten ++ roundOf s2.producers) ∧
    (s2.producers = [] ∨ ∃ ph, s2.producers = [ph] ∧
      phaseKeys ph = K ∧ ph.inRun = true) := by
  cases hstep with
  | start symbols => simp [Act.isStart] at hs
  | cancelOp =>
    exact ⟨⟨[], 0, by simp [TickerEngine.cancel],
      by simp [TickerEngine.cancel]⟩, hinv⟩
  | drainOp max =>
    exact ⟨⟨[], 0, by simp [TickerEngine.drain_updates],
      by simp [TickerEngine.drain_updates]⟩, hinv⟩
  | initFail pre post symbols hp =>
    rcases hinv with h | ⟨ph, hp1, hkeys, hrun⟩
    · exact (nil_producers_no_phase h hp).elim
    · rw [hp1] at hp
      obtain ⟨h1, h2, h3⟩ := singleton_eq_append_cons hp
      rw [← h2] at hrun
      simp [ProducerPhase.inRun] at hrun
  | initOk pre post symbols ctx bases hp hlen hb hperm =>
    rcases hinv with h | ⟨ph, hp1, hkeys, hrun⟩
    · exact (nil_producers_no_phase h hp).elim
    · rw [hp1] at hp
      obtain ⟨h1, h2, h3⟩ := singleton_eq_append_cons hp
      rw [← h2] at hrun
      simp [ProducerPhase.inRun] at hrun
  | checkTrue pre post ctx hc hp =>
    rcases hinv with h | ⟨ph, hp1, hkeys, hrun⟩
    · exact (nil_producers_no_phase h hp).elim
    · rw [hp1] at hp
      obtain ⟨h1, h2, h3⟩ := singleton_eq_append_cons hp
      subst h1; subst h3
      refine ⟨⟨[], 0, by simp, ?_⟩, Or.inl (by simp)⟩
      rw [hp1, ← h2]
      simp [roundOf, phaseRound]
  | checkFalse pre post ctx hc hp =>
    rcases hinv with h | ⟨ph, hp1, hkeys, hrun⟩
    · exact (nil_producers_no_phase h hp).elim
    · rw [hp1] at hp
      obtain ⟨h1, h2, h3⟩ := singleton_eq_append_cons hp
      subst h1; subst h3
      refine ⟨⟨[], 0, by simp, ?_⟩, ?_⟩
      · rw [hp1, ← h2]
        simp [roundOf, phaseRound]
      · refine Or.inr ⟨ProducerPhase.stepping [] ctx, by simp, ?_, rfl⟩
        rw [← hkeys, ← h2]
        simp [phaseKeys]
  | listen pre post done todo sym p d t hp hd1 hd2 =>
    rcases hinv with h | ⟨ph, hp1, hkeys, hrun⟩
    · exact (nil_producers_no_phase h hp).elim
    · rw [hp1] at hp
      obtain ⟨h1, h2, h3⟩ := singleton_eq_append_cons hp
      subst h1; subst h3
      refine ⟨⟨[⟨sym, newPrice p d, t⟩], 0, rfl, ?_⟩, ?_⟩
      · rw [hp1, ← h2]
        simp [roundOf, phaseRound]
      · refine Or.inr ⟨ProducerPhase.enqueuing
          (done ++ [(sym, newPrice p d)]) todo ⟨sym, newPrice p d, t⟩,
          by simp, ?_, rfl⟩
        rw [← hkeys, ← h2]
        simp [phaseKeys]
  | enqueue pre post done todo u hp =>
    rcases hinv with h | ⟨ph, hp1, hkeys, hrun⟩
    · exact (nil_producers_no_phase h hp).elim
    · rw [hp1] at hp
      obtain ⟨h1, h2, h3⟩ := singleton_eq_append_cons hp
      subst h1; subst h3
      refine ⟨⟨[], 0, by simp, ?_⟩, ?_⟩
      · rw [hp1, ← h2]
        simp [roundOf, phaseRound]
      · refine Or.inr ⟨ProducerPhase.stepping done todo, by simp, ?_, rfl⟩
        rw [← hkeys, ← h2]
        simp [phaseKeys]
  | stepDone pre post done hp =>
    rcases hinv with h | ⟨ph, hp1, hkeys, hrun⟩
    · exact (nil_producers_no_phase h hp).elim
    · rw [hp1] at hp
      obtain ⟨h1, h2, h3⟩ := singleton_eq_append_cons hp
      subst h1; subst h3
      have hkd : done.map Prod.fst = K := by
        rw [← hkeys, ← h2]
        simp [phaseKeys]
      refine ⟨⟨[], 1, by simp, ?_⟩, ?_⟩
      · rw [hp1, ← h2]
        simp [roundOf, phaseRound, hkd]
      · exact Or.inr ⟨ProducerPhase.sleeping done, by simp,
          by simp [phaseKeys, hkd], rfl⟩
  | wake pre post ctx hp =>
    rcases hinv with h | ⟨ph, hp1, hkeys, hrun⟩
    · exact (nil_producers_no_phase h hp).elim
    · rw [hp1] at hp
      obtain ⟨h1, h2, h3⟩ := singleton_eq_append_cons hp
      subst h1; subst h3
      refine ⟨⟨[], 0, by simp, ?_⟩, ?_⟩
      · rw [hp1, ← h2]
        simp [roundOf, phaseRound]
      · refine Or.inr ⟨ProducerPhase.checking ctx, by simp, ?_, rfl⟩
        rw [← hkeys, ← h2]
        simp [phaseKeys]

theorem order_exec_aux :
    ∀ {s s2 : SysState} {ls : List Act} (K : List String), Exec s ls s2 →
    (∀ a ∈ ls, a.isStart = false) →
    (s.producers = [] ∨ ∃ ph, s.producers = [ph] ∧
      phaseKeys ph = K ∧ ph.inRun = true) →
    (∃ e k, s2.listenerLog = s.listenerLog ++ e ∧
      roundOf s.producers ++ e.map PriceUpdate.symbol =
        (List.replicate k K).flatten ++ roundOf s2.producers) ∧
    (s2.producers = [] ∨ ∃ ph, s2.producers = [ph] ∧
      phaseKeys ph = K ∧ ph.inRun = true) := by
  intro s s2 ls K hexec
  induction hexec with
  | nil s =>
    intro hns hinv
    exact ⟨⟨[], 0, by simp, by simp⟩, hinv⟩
  | @cons s smid s3 a as hstep hrest ih =>
    intro hns hinv
    obtain ⟨⟨e1, k1, hlog1, heq1⟩, hinv2⟩ :=
      order_step hstep (hns _ (List.mem_cons_self _ _)) hinv
    obtain ⟨⟨e2, k2, hlog2, heq2⟩, hinv3⟩ :=
      ih (fun a2 ha => hns a2 (List.mem_cons_of_mem _ ha)) hinv2
    refine ⟨⟨e1 ++ e2, k1 + k2, ?_, ?_⟩, hinv3⟩
    · rw [hlog2, hlog1, List.append_assoc]
    · calc roundOf s.producers ++ (e1 ++ e2).map PriceUpdate.symbol
          = (roundOf s.producers ++ e1.map PriceUpdate.symbol) ++
              e2.map PriceUpdate.symbol := by
            rw [List.map_append, List.append_assoc]
      _ = ((List.replicate k1 K).flatten ++ roundOf smid.producers) ++
              e2.map PriceUpdate.symbol := by rw [heq1]
      _ = (List.replicate k1 K).flatten ++
              (roundOf smid.producers ++ e2.map PriceUpdate.symbol) := by
            rw [List.append_assoc]
      _ = (List.replicate k1 K).flatten ++
              ((List.replicate k2 K).flatten ++ roundOf s3.producers) := by
            rw [heq2]
      _ = (List.replicate (k1 + k2) K).flatten ++ roundOf s3.producers := by
            rw [replicate_flatten_add, List.append_assoc]

/-- C8: within a single producer run the tracked symbols are visited in a
fixed deterministic iteration order, the same in every step of the run, and
updates are delivered to the listener in exactly that order within each step
and across steps in generation order: for any execution of a run that starts
at the top of the producer loop with map iteration order `ctx`, the symbols
of the listener deliveries performed by the execution are exactly some
number of whole rounds of `ctx`'s key sequence followed by the prefix of the
key sequence belonging to the unfinished step, and the producer's key
sequence never changes for the rest of the run. -/
theorem C8_fixed_iteration_order {s s2 : SysState} {ls : List Act}
    {ctx : List (String × ℚ)} (hexec : Exec s ls s2)
    (hp : s.producers = [ProducerPhase.checking ctx])
    (hns : ∀ a ∈ ls, a.isStart = false) :
    (∃ k, (s2.listenerLog.drop s.listenerLog.length).map PriceUpdate.symbol =
      (List.replicate k (ctx.map Prod.fst)).flatten ++
        roundOf s2.producers) ∧
    (s2.producers = [] ∨ ∃ ph, s2.producers = [ph] ∧
      phaseKeys ph = ctx.map Prod.fst ∧ ph.inRun = true ∧
      ∃ t, phaseRound ph ++ t = ctx.map Prod.fst) := by
  obtain ⟨⟨e, k, hlog, heq⟩, hinv⟩ := order_exec_aux (ctx.map Prod.fst)
    hexec hns (Or.inr ⟨ProducerPhase.checking ctx, hp, rfl, rfl⟩)
  constructor
  · refine ⟨k, ?_⟩
    rw [hlog, List.drop_left]
    rw [hp] at heq
    simpa [roundOf, phaseRound] using heq
  · rcases hinv with h2 | ⟨ph, hps, hkeys, hrun⟩
    · exact Or.inl h2
    · refine Or.inr ⟨ph, hps, hkeys, hrun, ?_⟩
      obtain ⟨t, ht⟩ := phaseRound_extends ph
      exact ⟨t, by rw [ht, hkeys]⟩

/-- Sample run after its first full step, inside the sleep. -/
def traceState6 : SysState :=
  { traceState5 with
      producers := [ProducerPhase.sleeping [("AAPL", newPrice 100 0)]] }

theorem step_trace_5_6 : Step traceState5 Act.stepDone traceState6 := by
  have h := Step.stepDone traceState5 [] [] [("AAPL", newPrice 100 0)] rfl
  exact h

theorem exec_order : Exec traceState2
    [Act.checkCancel, Act.listen 0 0, Act.enqueue, Act.stepDone]
    traceState6 :=
  Exec.cons step_trace_2_3 (Exec.cons step_trace_3_4
    (Exec.cons step_trace_4_5 (Exec.cons step_trace_5_6
      (Exec.nil traceState6))))

theorem C8_fixed_iteration_order_witness :
    ∃ k, (traceState6.listenerLog.drop
        traceState2.listenerLog.length).map PriceUpdate.symbol =
      (List.replicate k (sampleCtx.map Prod.fst)).flatten ++
        roundOf traceState6.producers :=
  (C8_fixed_iteration_order exec_order rfl (by decide)).1

end TickerCore
